import Mathlib

/-!
Verification development for the `blackscholes-rust` repository.

Floating-point numbers (`f32`/`f64`) are modelled by the real numbers `ℝ`.
The pricing core of `src/lets_be_rational` (the normalised Black pricer,
the normal distribution, and the limited-iterations rational solver) is not
present under `src/`; those pieces are modelled from the specification and
each such definition carries a doc comment starting `Modelled from the spec:`.
Everything else is translated directly from the Rust source.
-/

open Filter Set Topology

namespace BlackScholesRust

/-- Modelled from the spec: the standard normal PDF of `NormalDistribution`
(`src/lets_be_rational/normal_distribution.rs` is absent from `src/`):
`pdf(z) = exp(-z^2/2) / sqrt(2*pi)`. -/
noncomputable def normPdf (z : ℝ) : ℝ :=
  Real.exp (-z ^ 2 / 2) / Real.sqrt (2 * Real.pi)

/-- Modelled from the spec: the standard normal CDF of `NormalDistribution`
(`src/lets_be_rational/normal_distribution.rs` is absent from `src/`),
a total function of `z`, written as `1/2` plus the integral of the Gaussian
density from `0` to `z`. -/
noncomputable def normCdf (z : ℝ) : ℝ :=
  1 / 2 + (∫ t in (0 : ℝ)..z, Real.exp (-t ^ 2 / 2)) / Real.sqrt (2 * Real.pi)

lemma continuous_gaussDensity : Continuous fun t : ℝ => Real.exp (-t ^ 2 / 2) := by
  fun_prop

lemma sqrt_two_pi_pos : 0 < Real.sqrt (2 * Real.pi) :=
  Real.sqrt_pos.2 (by positivity)

lemma hasDerivAt_normCdf (z : ℝ) : HasDerivAt normCdf (normPdf z) z := by
  have h : HasDerivAt (fun u => ∫ t in (0 : ℝ)..u, Real.exp (-t ^ 2 / 2))
      (Real.exp (-z ^ 2 / 2)) z :=
    intervalIntegral.integral_hasDerivAt_right
      (continuous_gaussDensity.intervalIntegrable _ _)
      continuous_gaussDensity.stronglyMeasurable.stronglyMeasurableAtFilter
      continuous_gaussDensity.continuousAt
  have h2 := (h.div_const (Real.sqrt (2 * Real.pi))).const_add (1 / 2 : ℝ)
  exact h2

lemma normPdf_pos (z : ℝ) : 0 < normPdf z :=
  div_pos (Real.exp_pos _) sqrt_two_pi_pos

lemma strictMono_normCdf : StrictMono normCdf :=
  strictMono_of_deriv_pos fun z => by
    rw [(hasDerivAt_normCdf z).deriv]; exact normPdf_pos z

lemma gaussDensity_eq : (fun t : ℝ => Real.exp (-t ^ 2 / 2)) =
    fun t : ℝ => Real.exp (-(1 / 2 : ℝ) * t ^ 2) := by
  funext t; congr 1; ring

lemma integrableOn_gaussDensity_Iic :
    MeasureTheory.IntegrableOn (fun t : ℝ => Real.exp (-t ^ 2 / 2)) (Set.Iic 0) := by
  rw [gaussDensity_eq]
  exact (integrable_exp_neg_mul_sq (by norm_num : (0 : ℝ) < 1 / 2)).integrableOn

lemma integral_gaussDensity_Iic_zero :
    ∫ t in Set.Iic (0 : ℝ), Real.exp (-t ^ 2 / 2) = Real.sqrt (2 * Real.pi) / 2 := by
  have h := integral_comp_neg_Iic (0 : ℝ) (fun t : ℝ => Real.exp (-t ^ 2 / 2))
  simp only [neg_sq, neg_zero] at h
  rw [h, gaussDensity_eq, integral_gaussian_Ioi (1 / 2 : ℝ)]
  congr 2
  rw [div_div_eq_mul_div, div_one, mul_comm]

lemma tendsto_normCdf_atBot : Tendsto normCdf atBot (𝓝 0) := by
  have h := MeasureTheory.intervalIntegral_tendsto_integral_Iic (μ := MeasureTheory.volume)
    (0 : ℝ) integrableOn_gaussDensity_Iic tendsto_id
  have h2 : Tendsto (fun z : ℝ => 1 / 2 - (∫ t in z..(0 : ℝ), Real.exp (-t ^ 2 / 2)) /
      Real.sqrt (2 * Real.pi)) atBot
      (𝓝 (1 / 2 - (∫ t in Set.Iic (0 : ℝ), Real.exp (-t ^ 2 / 2)) /
        Real.sqrt (2 * Real.pi))) :=
    ((h.div_const _).const_sub _)
  have heq : (fun z : ℝ => 1 / 2 - (∫ t in z..(0 : ℝ), Real.exp (-t ^ 2 / 2)) /
      Real.sqrt (2 * Real.pi)) = normCdf := by
    funext z
    rw [normCdf, intervalIntegral.integral_symm]
    ring
  rw [heq, integral_gaussDensity_Iic_zero] at h2
  have hval : 1 / 2 - Real.sqrt (2 * Real.pi) / 2 / Real.sqrt (2 * Real.pi) = 0 := by
    field_simp
  rwa [hval] at h2

lemma normCdf_pos (z : ℝ) : 0 < normCdf z := by
  have h1 : 0 ≤ normCdf (z - 1) := by
    refine le_of_tendsto tendsto_normCdf_atBot ?_
    filter_upwards [eventually_le_atBot (z - 1)] with w hw
    exact strictMono_normCdf.monotone hw
  exact lt_of_le_of_lt h1 (strictMono_normCdf (by linarith))

/-- Constant `DENORMALISATION_CUTOFF` from `src/lets_be_rational/mod.rs` line 12. -/
noncomputable def DENORMALISATION_CUTOFF : ℝ := 0

/-- Modelled from the spec: the intrinsic value of the normalised Black function
(`src/lets_be_rational/black.rs` / `intrinsic.rs` are absent from `src/`).
The spec gives the intrinsic bound `max(θ(e^x − 1), 0)` up to normalisation by
`sqrt(forward*strike)`; in the normalised coordinates this is
`max(θ(e^(x/2) − e^(−x/2)), 0)`, here for a call (`θ = 1`). -/
noncomputable def normalisedIntrinsicCall (x : ℝ) : ℝ :=
  max (Real.exp (x / 2) - Real.exp (-x / 2)) 0

/-- Modelled from the spec: the normalised Black value of a call option
(`src/lets_be_rational/black.rs` is absent from `src/`).  Following §4.3 of the
spec: if the total deviation `s` is at or below the denormalisation cutoff the
intrinsic value is returned directly (the classic formula is singular there);
otherwise `d± = x/s ± s/2` and the value is `e^(x/2)·Φ(d+) − e^(−x/2)·Φ(d−)`.
The asymptotic-expansion branch of §4.3 step 4 is a finite-precision device
whose exact real value is the step-3 formula, so it does not appear in the
real-number model. -/
noncomputable def normalised_black_call (x s : ℝ) : ℝ :=
  if s ≤ DENORMALISATION_CUTOFF then normalisedIntrinsicCall x
  else Real.exp (x / 2) * normCdf (x / s + s / 2) -
    Real.exp (-x / 2) * normCdf (x / s - s / 2)

/-- Modelled from the spec: the normalised Black value for option sign `θ`
(`src/lets_be_rational/black.rs` is absent from `src/`).  Per §3 of the spec a
sign flip of the log-moneyness swaps the call/put roles, so the put value at
`x` is the call value at `−x`: `b(x, s, θ) = bcall(θ·x, s)`. -/
noncomputable def normalised_black (x s θ : ℝ) : ℝ :=
  normalised_black_call (θ * x) s

/-- Type `OptionType` of the repository: `Call` or `Put`. -/
inductive OptionType where
  | Call : OptionType
  | Put : OptionType
deriving DecidableEq

/-- The conversion `option_type.into() : f64`, i.e. `+1` for a call
and `−1` for a put. -/
noncomputable def OptionType.sign : OptionType → ℝ
  | OptionType.Call => 1
  | OptionType.Put => (-1)

/-- The `Neg` implementation on `OptionType` used by `-option_type`
in `black`. -/
instance : Neg OptionType :=
  ⟨fun o => match o with
    | OptionType.Call => OptionType.Put
    | OptionType.Put => OptionType.Call⟩

lemma OptionType.neg_call : (-OptionType.Call) = OptionType.Put := rfl

lemma OptionType.neg_put : (-OptionType.Put) = OptionType.Call := rfl

lemma OptionType.sign_neg (o : OptionType) : (-o).sign = -o.sign := by
  cases o <;> simp [OptionType.sign, OptionType.neg_call, OptionType.neg_put]

/-- The `intrinsic` local of `black` in `src/lets_be_rational/mod.rs`
lines 77–83: `(if q < 0 { strike - forward } else { forward - strike })
.max(0).abs()`. -/
noncomputable def intrinsicValue (forward_price strike_price : ℝ) (option_type : OptionType) : ℝ :=
  |max (if option_type.sign < 0 then strike_price - forward_price
    else forward_price - strike_price) 0|

/-- Fuel-indexed version of `black` from `src/lets_be_rational/mod.rs`
lines 66–103.  The Rust function recurses once on the in-the-money branch;
the fuel makes the recursion structural, and `black` below is the fuel-2
instance (enough for the single mirroring, as proven in the C4 theorem). -/
noncomputable def blackFuel : ℕ → ℝ → ℝ → ℝ → ℝ → OptionType → ℝ
  | 0, _, _, _, _, _ => 0
  | n + 1, forward_price, strike_price, sigma, time_to_maturity, option_type =>
    let q := option_type.sign
    let intrinsic := intrinsicValue forward_price strike_price option_type
    if q * (forward_price - strike_price) > 0 then
      intrinsic + blackFuel n forward_price strike_price sigma time_to_maturity (-option_type)
    else
      max intrinsic
        (Real.sqrt forward_price * Real.sqrt strike_price *
          normalised_black (Real.log (forward_price / strike_price))
            (sigma * Real.sqrt time_to_maturity) q)

/-- Function `black` from `src/lets_be_rational/mod.rs` lines 66–103. -/
noncomputable def black (forward_price strike_price sigma time_to_maturity : ℝ)
    (option_type : OptionType) : ℝ :=
  blackFuel 2 forward_price strike_price sigma time_to_maturity option_type

/-- The out-of-the-money branch of `black` (the `else` arm of the mirroring
conditional). -/
noncomputable def blackOtmBranch (forward_price strike_price sigma time_to_maturity : ℝ)
    (option_type : OptionType) : ℝ :=
  max (intrinsicValue forward_price strike_price option_type)
    (Real.sqrt forward_price * Real.sqrt strike_price *
      normalised_black (Real.log (forward_price / strike_price))
        (sigma * Real.sqrt time_to_maturity) option_type.sign)

lemma blackFuel_succ_of_itm {f k σ t : ℝ} {o : OptionType} (n : ℕ)
    (h : o.sign * (f - k) > 0) :
    blackFuel (n + 1) f k σ t o = intrinsicValue f k o + blackFuel n f k σ t (-o) := by
  simp only [blackFuel, h, if_pos]

lemma blackFuel_succ_of_otm {f k σ t : ℝ} {o : OptionType} (n : ℕ)
    (h : ¬o.sign * (f - k) > 0) :
    blackFuel (n + 1) f k σ t o = blackOtmBranch f k σ t o := by
  simp only [blackFuel, h, if_neg, not_false_iff, blackOtmBranch]

/-- The code's intrinsic value coincides with `max(θ(F−K), 0)`. -/
lemma intrinsicValue_eq (f k : ℝ) (o : OptionType) :
    intrinsicValue f k o = max (o.sign * (f - k)) 0 := by
  cases o
  · simp only [intrinsicValue, OptionType.sign]
    rw [if_neg (by norm_num : ¬(1 : ℝ) < 0), abs_of_nonneg (le_max_right _ _), one_mul]
  · simp only [intrinsicValue, OptionType.sign]
    rw [if_pos (by norm_num : (-1 : ℝ) < 0), abs_of_nonneg (le_max_right _ _)]
    congr 1
    ring

lemma intrinsicValue_nonneg (f k : ℝ) (o : OptionType) :
    0 ≤ intrinsicValue f k o := abs_nonneg _

lemma blackOtmBranch_nonneg (f k σ t : ℝ) (o : OptionType) :
    0 ≤ blackOtmBranch f k σ t o :=
  le_trans (intrinsicValue_nonneg f k o) (le_max_left _ _)

lemma mirror_not_itm {f k : ℝ} {o : OptionType} (h : o.sign * (f - k) > 0) :
    ¬(-o).sign * (f - k) > 0 := by
  rw [OptionType.sign_neg]
  intro hcon
  nlinarith

lemma log_self_div (f : ℝ) : Real.log (f / f) = 0 := by
  by_cases hf : f = 0
  · subst hf
    simp
  · rw [div_self hf, Real.log_one]

end BlackScholesRust

namespace BlackScholesRust

/-- C3: for every forward price `F`, strike `K`, `σ`, maturity `T` and option
type `θ`, `black F K σ T θ` is at least the intrinsic value `max(θ(F−K), 0)`.
Proven without any assumption on the (spec-modelled) normalised Black
function: the in-the-money branch adds the intrinsic value to a non-negative
out-of-the-money evaluation, and the out-of-the-money branch takes a `max`
with the intrinsic value. -/
theorem black_ge_intrinsic (f k σ t : ℝ) (o : OptionType) :
    max (o.sign * (f - k)) 0 ≤ black f k σ t o := by
  rw [← intrinsicValue_eq, black]
  by_cases h : o.sign * (f - k) > 0
  · rw [blackFuel_succ_of_itm 1 h, blackFuel_succ_of_otm 0 (mirror_not_itm h)]
    exact le_add_of_nonneg_right (blackOtmBranch_nonneg f k σ t (-o))
  · rw [blackFuel_succ_of_otm 1 h]
    exact le_max_left _ _

/-- C4: the ITM→OTM mirroring in `black` recurses at most once: whenever the
branch condition `q·(F−K) > 0` holds, it is false for the mirrored option type
`−θ`, and consequently the value of the fuel-indexed recursion is already
stable at fuel 2 — i.e. `black` terminates with recursion depth at most 1. -/
theorem black_mirrors_at_most_once (f k σ t : ℝ) (o : OptionType) :
    (o.sign * (f - k) > 0 → ¬(-o).sign * (f - k) > 0) ∧
    ∀ n : ℕ, blackFuel (n + 2) f k σ t o = black f k σ t o := by
  refine ⟨fun h => mirror_not_itm h, fun n => ?_⟩
  by_cases h : o.sign * (f - k) > 0
  · rw [show n + 2 = (n + 1) + 1 by ring, blackFuel_succ_of_itm (n + 1) h,
      blackFuel_succ_of_otm n (mirror_not_itm h), black,
      blackFuel_succ_of_itm 1 h, blackFuel_succ_of_otm 0 (mirror_not_itm h)]
  · rw [show n + 2 = (n + 1) + 1 by ring, blackFuel_succ_of_otm (n + 1) h, black,
      blackFuel_succ_of_otm 1 h]

/-- Witness for C4 at the concrete in-the-money input
`(F, K, σ, T, θ) = (2, 1, 1, 1, Call)` and fuel 5. -/
theorem black_mirrors_at_most_once_witness :
    (¬(-OptionType.Call).sign * ((2 : ℝ) - 1) > 0) ∧
    blackFuel 5 2 1 1 1 OptionType.Call = black 2 1 1 1 OptionType.Call :=
  ⟨(black_mirrors_at_most_once 2 1 1 1 OptionType.Call).1
      (by simp [OptionType.sign]),
    (black_mirrors_at_most_once 2 1 1 1 OptionType.Call).2 3⟩

/-- C5: put-call parity.  For every forward `F`, strike `K`, `σ` and maturity
`T`, `black F K σ T Call − black F K σ T Put = F − K`.  The in-the-money leg
equals its intrinsic value plus the out-of-the-money leg of the opposite
type, and at `F = K` the two legs coincide by the `x ↦ −x` symmetry of the
normalised Black function. -/
theorem black_put_call_parity (f k σ t : ℝ) :
    black f k σ t OptionType.Call - black f k σ t OptionType.Put = f - k := by
  have hsc : OptionType.Call.sign = (1 : ℝ) := rfl
  have hsp : OptionType.Put.sign = (-1 : ℝ) := rfl
  rcases lt_trichotomy k f with hlt | heq | hgt
  · have hc : OptionType.Call.sign * (f - k) > 0 := by rw [hsc]; nlinarith
    have hp : ¬OptionType.Put.sign * (f - k) > 0 := by rw [hsp]; nlinarith
    rw [black, black, blackFuel_succ_of_itm 1 hc, OptionType.neg_call,
      blackFuel_succ_of_otm 0 hp, blackFuel_succ_of_otm 1 hp,
      intrinsicValue_eq, hsc, one_mul, max_eq_left (by linarith)]
    ring
  · have hc : ¬OptionType.Call.sign * (f - k) > 0 := by rw [hsc]; nlinarith
    have hp : ¬OptionType.Put.sign * (f - k) > 0 := by rw [hsp]; nlinarith
    rw [black, black, blackFuel_succ_of_otm 1 hc, blackFuel_succ_of_otm 1 hp]
    have hbr : blackOtmBranch f k σ t OptionType.Call
        = blackOtmBranch f k σ t OptionType.Put := by
      subst heq
      rw [blackOtmBranch, blackOtmBranch, intrinsicValue_eq, intrinsicValue_eq,
        hsc, hsp, log_self_div, normalised_black, normalised_black,
        mul_zero, mul_zero]
      ring_nf
    rw [hbr, heq]
    ring
  · have hc : ¬OptionType.Call.sign * (f - k) > 0 := by rw [hsc]; nlinarith
    have hp : OptionType.Put.sign * (f - k) > 0 := by rw [hsp]; nlinarith
    rw [black, black, blackFuel_succ_of_otm 1 hc, blackFuel_succ_of_itm 1 hp,
      OptionType.neg_put, blackFuel_succ_of_otm 0 hc,
      intrinsicValue_eq, hsp]
    rw [max_eq_left (by nlinarith)]
    ring

lemma normalisedIntrinsicCall_of_nonpos {y : ℝ} (hy : y ≤ 0) :
    normalisedIntrinsicCall y = 0 := by
  rw [normalisedIntrinsicCall, max_eq_right]
  have h := Real.exp_le_exp.2 (show y / 2 ≤ -y / 2 by linarith)
  linarith

lemma normalised_black_call_cutoff {x s : ℝ} (hs : s ≤ 0) :
    normalised_black_call x s = normalisedIntrinsicCall x := by
  rw [normalised_black_call, if_pos]
  simpa [DENORMALISATION_CUTOFF] using hs

lemma sign_mul_log_pos {o : OptionType} {f k : ℝ} (hf : 0 < f) (hk : 0 < k)
    (h : o.sign * (f - k) > 0) : 0 < o.sign * Real.log (f / k) := by
  cases o
  · rw [show OptionType.Call.sign = (1 : ℝ) from rfl, one_mul] at h ⊢
    exact Real.log_pos ((one_lt_div hk).2 (by linarith))
  · rw [show OptionType.Put.sign = (-1 : ℝ) from rfl] at h ⊢
    have hlt : f < k := by nlinarith
    have := Real.log_neg (div_pos hf hk) ((div_lt_one hk).2 hlt)
    nlinarith

lemma sign_mul_log_nonpos {o : OptionType} {f k : ℝ} (hf : 0 < f) (hk : 0 < k)
    (h : ¬o.sign * (f - k) > 0) : o.sign * Real.log (f / k) ≤ 0 := by
  cases o
  · rw [show OptionType.Call.sign = (1 : ℝ) from rfl, one_mul] at h ⊢
    have hle : f ≤ k := by nlinarith
    exact Real.log_nonpos (by positivity) ((div_le_one hk).2 hle)
  · rw [show OptionType.Put.sign = (-1 : ℝ) from rfl] at h ⊢
    have hle : k ≤ f := by nlinarith
    have := Real.log_nonneg ((one_le_div hk).2 hle)
    nlinarith

/-- C6: with zero total deviation (`σ·√T = 0`, i.e. zero volatility or zero
maturity), `black` returns exactly the intrinsic value `max(θ(F−K), 0)`,
through the denormalisation-cutoff branch of the normalised Black function
rather than the (singular) Black formula. -/
theorem black_zero_deviation_eq_intrinsic (f k σ t : ℝ) (o : OptionType)
    (hf : 0 < f) (hk : 0 < k) (hs : σ * Real.sqrt t = 0) :
    black f k σ t o = max (o.sign * (f - k)) 0 := by
  by_cases h : o.sign * (f - k) > 0
  · rw [black, blackFuel_succ_of_itm 1 h, blackFuel_succ_of_otm 0 (mirror_not_itm h)]
    have hx : (-o).sign * Real.log (f / k) ≤ 0 := by
      rw [OptionType.sign_neg]
      have := sign_mul_log_pos hf hk h
      nlinarith
    rw [blackOtmBranch, normalised_black, hs, normalised_black_call_cutoff le_rfl,
      normalisedIntrinsicCall_of_nonpos hx, mul_zero]
    have hinner : intrinsicValue f k (-o) = 0 := by
      rw [intrinsicValue_eq, OptionType.sign_neg]
      exact max_eq_right (by nlinarith)
    rw [hinner, max_self, add_zero, intrinsicValue_eq]
  · rw [black, blackFuel_succ_of_otm 1 h]
    have hx : o.sign * Real.log (f / k) ≤ 0 := sign_mul_log_nonpos hf hk h
    rw [blackOtmBranch, normalised_black, hs, normalised_black_call_cutoff le_rfl,
      normalisedIntrinsicCall_of_nonpos hx, mul_zero, intrinsicValue_eq]
    exact max_eq_left (le_max_right _ _)

/-- Witness for C6 at the concrete input
`(F, K, σ, T, θ) = (1, 2, 0, 1, Put)`. -/
theorem black_zero_deviation_eq_intrinsic_witness :
    (0 : ℝ) < 1 ∧ (0 : ℝ) < 2 ∧ (0 : ℝ) * Real.sqrt 1 = 0 ∧
    black 1 2 0 1 OptionType.Put = max (OptionType.Put.sign * ((1 : ℝ) - 2)) 0 :=
  ⟨one_pos, two_pos, zero_mul _,
    black_zero_deviation_eq_intrinsic 1 2 0 1 OptionType.Put one_pos two_pos (zero_mul _)⟩

/-- The formula branch of the normalised Black call value (`s` above the
cutoff): `e^(x/2)·Φ(x/s + s/2) − e^(−x/2)·Φ(x/s − s/2)`. -/
noncomputable def bcallFormula (x s : ℝ) : ℝ :=
  Real.exp (x / 2) * normCdf (x / s + s / 2) -
    Real.exp (-x / 2) * normCdf (x / s - s / 2)

lemma normalised_black_call_of_pos {x s : ℝ} (hs : 0 < s) :
    normalised_black_call x s = bcallFormula x s := by
  rw [normalised_black_call, if_neg, bcallFormula]
  simp only [DENORMALISATION_CUTOFF, not_le]
  exact hs

/-- The two vega terms agree: `e^(−x/2)·φ(d−) = e^(x/2)·φ(d+)`. -/
lemma normPdf_mirror {x s : ℝ} (hs : s ≠ 0) :
    Real.exp (-x / 2) * normPdf (x / s - s / 2) =
      Real.exp (x / 2) * normPdf (x / s + s / 2) := by
  rw [normPdf, normPdf, ← mul_div_assoc, ← mul_div_assoc, ← Real.exp_add, ← Real.exp_add]
  congr 1
  field_simp
  ring

lemma hasDerivAt_bcallFormula {x s : ℝ} (hs : 0 < s) :
    HasDerivAt (bcallFormula x) (Real.exp (x / 2) * normPdf (x / s + s / 2)) s := by
  have hq : HasDerivAt (fun y : ℝ => x / y)
      ((0 * s - x * 1) / s ^ 2) s :=
    (hasDerivAt_const s x).div (hasDerivAt_id s) hs.ne'
  have hu : HasDerivAt (fun y : ℝ => x / y + y / 2)
      ((0 * s - x * 1) / s ^ 2 + 1 / 2) s := hq.add ((hasDerivAt_id s).div_const 2)
  have hv : HasDerivAt (fun y : ℝ => x / y - y / 2)
      ((0 * s - x * 1) / s ^ 2 - 1 / 2) s := hq.sub ((hasDerivAt_id s).div_const 2)
  have hcu := ((hasDerivAt_normCdf (x / s + s / 2)).comp s hu).const_mul (Real.exp (x / 2))
  have hcv := ((hasDerivAt_normCdf (x / s - s / 2)).comp s hv).const_mul (Real.exp (-x / 2))
  have htotal := hcu.sub hcv
  have hder : Real.exp (x / 2) * normPdf (x / s + s / 2) =
      Real.exp (x / 2) * (normPdf (x / s + s / 2) * ((0 * s - x * 1) / s ^ 2 + 1 / 2)) -
        Real.exp (-x / 2) * (normPdf (x / s - s / 2) * ((0 * s - x * 1) / s ^ 2 - 1 / 2)) := by
    rw [← mul_assoc, ← mul_assoc, normPdf_mirror hs.ne']
    field_simp
    ring
  rw [hder]
  exact htotal

lemma strictMonoOn_bcall (x : ℝ) :
    StrictMonoOn (normalised_black_call x) (Set.Ioi 0) := by
  have h1 : StrictMonoOn (bcallFormula x) (Set.Ioi 0) := by
    refine strictMonoOn_of_deriv_pos (convex_Ioi 0) ?_ ?_
    · intro s hs
      exact (hasDerivAt_bcallFormula hs).continuousAt.continuousWithinAt
    · intro s hs
      rw [interior_Ioi] at hs
      rw [(hasDerivAt_bcallFormula hs).deriv]
      exact mul_pos (Real.exp_pos _) (normPdf_pos _)
  exact h1.congr fun s hs => (normalised_black_call_of_pos hs).symm

lemma tendsto_bcallFormula_zero {x : ℝ} (hx : x < 0) :
    Tendsto (fun s => bcallFormula x s) (𝓝[>] (0 : ℝ)) (𝓝 0) := by
  have hxs : Tendsto (fun s : ℝ => x * s⁻¹) (𝓝[>] (0 : ℝ)) atBot :=
    Tendsto.const_mul_atTop_of_neg hx tendsto_inv_zero_atTop
  have hid : Tendsto (fun s : ℝ => s) (𝓝[>] (0 : ℝ)) (𝓝 0) :=
    tendsto_id.mono_right nhdsWithin_le_nhds
  have hhalf : Tendsto (fun s : ℝ => s / 2) (𝓝[>] (0 : ℝ)) (𝓝 0) := by
    simpa using hid.div_const 2
  have hup : Tendsto (fun s : ℝ => x * s⁻¹ + s / 2) (𝓝[>] (0 : ℝ)) atBot := by
    refine tendsto_atBot_add_right_of_ge' (𝓝[>] (0 : ℝ)) (1 : ℝ) hxs ?_
    filter_upwards [hhalf.eventually_lt_const (by norm_num : (0 : ℝ) < 1)] with s h
    exact le_of_lt h
  have hdown : Tendsto (fun s : ℝ => x * s⁻¹ - s / 2) (𝓝[>] (0 : ℝ)) atBot := by
    simp only [sub_eq_add_neg]
    refine tendsto_atBot_add_nonpos_right' hxs ?_
    filter_upwards [self_mem_nhdsWithin] with s hsm
    have hs0 : (0 : ℝ) < s := hsm
    linarith
  have hcomp1 := tendsto_normCdf_atBot.comp hup
  have hcomp2 := tendsto_normCdf_atBot.comp hdown
  have hfinal := (hcomp1.const_mul (Real.exp (x / 2))).sub
    (hcomp2.const_mul (Real.exp (-x / 2)))
  simpa [bcallFormula, div_eq_mul_inv, Function.comp] using hfinal

lemma bcall_pos {x s : ℝ} (hx : x ≤ 0) (hs : 0 < s) :
    0 < normalised_black_call x s := by
  rcases hx.lt_or_eq with hlt | heq
  · have htend : Tendsto (fun u => normalised_black_call x u) (𝓝[>] (0 : ℝ)) (𝓝 0) := by
      refine (tendsto_bcallFormula_zero hlt).congr' ?_
      filter_upwards [self_mem_nhdsWithin] with u hu
      exact (normalised_black_call_of_pos hu).symm
    have hmono := strictMonoOn_bcall x
    have hhalf : (0 : ℝ) < s / 2 := by linarith
    have h0 : 0 ≤ normalised_black_call x (s / 2) := by
      refine le_of_tendsto htend ?_
      have hev := (tendsto_id.mono_right nhdsWithin_le_nhds :
        Tendsto (fun u : ℝ => u) (𝓝[>] (0 : ℝ)) (𝓝 0)).eventually_lt_const hhalf
      filter_upwards [self_mem_nhdsWithin, hev] with u hu hu2
      exact le_of_lt (hmono hu (Set.mem_Ioi.2 hhalf) hu2)
    exact lt_of_le_of_lt h0
      (hmono (Set.mem_Ioi.2 hhalf) (Set.mem_Ioi.2 hs) (by linarith))
  · rw [heq, normalised_black_call_of_pos hs, bcallFormula]
    simp only [zero_div, Real.exp_zero, neg_zero, one_mul, zero_add, zero_sub]
    have := strictMono_normCdf (show -(s / 2) < s / 2 by linarith)
    linarith

lemma blackOtmBranch_strictMono {f k t : ℝ} (o : OptionType) (hf : 0 < f) (hk : 0 < k)
    (ht : 0 < t) (hzero : intrinsicValue f k o = 0)
    (hy : o.sign * Real.log (f / k) ≤ 0) :
    StrictMonoOn (fun σ => blackOtmBranch f k σ t o) (Set.Ioi 0) := by
  intro a ha b hb hab
  have hsqt : 0 < Real.sqrt t := Real.sqrt_pos.2 ht
  have hc : 0 < Real.sqrt f * Real.sqrt k :=
    mul_pos (Real.sqrt_pos.2 hf) (Real.sqrt_pos.2 hk)
  have ha0 : (0 : ℝ) < a := ha
  have hb0 : (0 : ℝ) < b := hb
  have ha2 : 0 < a * Real.sqrt t := mul_pos ha0 hsqt
  have hb2 : 0 < b * Real.sqrt t := mul_pos hb0 hsqt
  have hslt : a * Real.sqrt t < b * Real.sqrt t := by nlinarith
  have hlt := strictMonoOn_bcall (o.sign * Real.log (f / k))
    (Set.mem_Ioi.2 ha2) (Set.mem_Ioi.2 hb2) hslt
  have hposa := bcall_pos hy ha2
  have hposb := bcall_pos hy hb2
  show blackOtmBranch f k a t o < blackOtmBranch f k b t o
  rw [blackOtmBranch, blackOtmBranch, normalised_black, normalised_black, hzero,
    max_eq_right (le_of_lt (mul_pos hc hposa)),
    max_eq_right (le_of_lt (mul_pos hc hposb))]
  exact mul_lt_mul_of_pos_left hlt hc

/-- C7: for fixed forward `F > 0`, strike `K > 0`, maturity `T > 0` and option
type, `black` is strictly increasing in `σ` over `σ > 0`. -/
theorem black_strictMono_in_sigma (f k t : ℝ) (o : OptionType)
    (hf : 0 < f) (hk : 0 < k) (ht : 0 < t) :
    StrictMonoOn (fun σ => black f k σ t o) (Set.Ioi 0) := by
  by_cases h : o.sign * (f - k) > 0
  · have hzero : intrinsicValue f k (-o) = 0 := by
      rw [intrinsicValue_eq, OptionType.sign_neg]
      exact max_eq_right (by nlinarith)
    have hy : (-o).sign * Real.log (f / k) ≤ 0 := by
      rw [OptionType.sign_neg]
      have := sign_mul_log_pos hf hk h
      nlinarith
    have hotm := blackOtmBranch_strictMono (-o) hf hk ht hzero hy
    intro a ha b hb hab
    have heqa : black f k a t o
        = intrinsicValue f k o + blackOtmBranch f k a t (-o) := by
      rw [black, blackFuel_succ_of_itm 1 h, blackFuel_succ_of_otm 0 (mirror_not_itm h)]
    have heqb : black f k b t o
        = intrinsicValue f k o + blackOtmBranch f k b t (-o) := by
      rw [black, blackFuel_succ_of_itm 1 h, blackFuel_succ_of_otm 0 (mirror_not_itm h)]
    show black f k a t o < black f k b t o
    rw [heqa, heqb]
    exact add_lt_add_left (hotm ha hb hab) _
  · have hzero : intrinsicValue f k o = 0 := by
      rw [intrinsicValue_eq]
      exact max_eq_right (le_of_not_lt h)
    have hy : o.sign * Real.log (f / k) ≤ 0 := sign_mul_log_nonpos hf hk h
    have hotm := blackOtmBranch_strictMono o hf hk ht hzero hy
    intro a ha b hb hab
    have heqa : black f k a t o = blackOtmBranch f k a t o := by
      rw [black, blackFuel_succ_of_otm 1 h]
    have heqb : black f k b t o = blackOtmBranch f k b t o := by
      rw [black, blackFuel_succ_of_otm 1 h]
    show black f k a t o < black f k b t o
    rw [heqa, heqb]
    exact hotm ha hb hab

/-- Witness for C7 at the concrete parameters
`(F, K, T, θ) = (1, 2, 1, Call)`. -/
theorem black_strictMono_in_sigma_witness :
    StrictMonoOn (fun σ => black 1 2 σ 1 OptionType.Call) (Set.Ioi 0) :=
  black_strictMono_in_sigma 1 2 1 OptionType.Call one_pos two_pos one_pos

/-- Type of the compile-time floating-point width parameter (`f32` or `f64`)
over which the `FloatMaxIterations` trait of `src/lets_be_rational/mod.rs` is
implemented. -/
inductive FloatWidth where
  | F32 : FloatWidth
  | F64 : FloatWidth
deriving DecidableEq

/-- Trait method `FloatMaxIterations::implied_volatility_maximum_iterations`
from `src/lets_be_rational/mod.rs` lines 16–32: returns `1` for `f32` and `2`
for `f64`. -/
def implied_volatility_maximum_iterations : FloatWidth → ℤ
  | FloatWidth.F32 => 1
  | FloatWidth.F64 => 2

/-- Modelled from the spec: the safeguarded Householder refinement loop of the
limited-iterations solver (`src/lets_be_rational/so_rational.rs` is absent
from `src/`).  Per §4.4–4.5 of the spec the solver refines a guess with up to
the budgeted number of iterations, stopping early when the residual criterion
holds; the budget itself is the stopping rule.  The numeric step and the
residual test are abstracted as `step` and `done`; the result pairs the final
iterate with the number of refinement iterations actually performed. -/
def refineSteps (step : ℝ → ℝ) (done : ℝ → Bool) : ℕ → ℝ → ℝ × ℕ
  | 0, v => (v, 0)
  | n + 1, v =>
    if done v then (v, 0)
    else ((refineSteps step done n (step v)).1, (refineSteps step done n (step v)).2 + 1)

/-- Modelled from the spec: the limited-iterations entry point
`implied_volatility_from_a_transformed_rational_guess_with_limited_iterations`
(`src/lets_be_rational/so_rational.rs` is absent from `src/`), which receives
the iteration budget `n` as its final argument. -/
def implied_volatility_with_limited_iterations (step : ℝ → ℝ) (done : ℝ → Bool)
    (guess : ℝ) (n : ℤ) : ℝ × ℕ :=
  refineSteps step done n.toNat guess

/-- Function `implied_volatility_from_a_transformed_rational_guess` from
`src/lets_be_rational/mod.rs` lines 105–123: forwards to the
limited-iterations solver, passing exactly
`T::implied_volatility_maximum_iterations()` as the budget. -/
def implied_volatility_from_a_transformed_rational_guess (step : ℝ → ℝ)
    (done : ℝ → Bool) (guess : ℝ) (w : FloatWidth) : ℝ × ℕ :=
  implied_volatility_with_limited_iterations step done guess
    (implied_volatility_maximum_iterations w)

lemma refineSteps_count_le (step : ℝ → ℝ) (done : ℝ → Bool) :
    ∀ n v, (refineSteps step done n v).2 ≤ n := by
  intro n
  induction n with
  | zero => intro v; simp [refineSteps]
  | succ m ih =>
    intro v
    by_cases hd : done v
    · simp [refineSteps, hd]
    · simp only [refineSteps, hd, Bool.false_eq_true, if_false]
      have := ih (step v)
      omega

/-- C2: the per-precision iteration budget is exactly 1 for `f32` and exactly
2 for `f64`, `implied_volatility_from_a_transformed_rational_guess` passes
exactly that width-determined budget to the limited-iterations solver, and
the solver never performs more refinement iterations than the budget. -/
theorem iteration_budget_respected :
    implied_volatility_maximum_iterations FloatWidth.F32 = 1 ∧
    implied_volatility_maximum_iterations FloatWidth.F64 = 2 ∧
    ∀ (step : ℝ → ℝ) (done : ℝ → Bool) (guess : ℝ) (w : FloatWidth),
      implied_volatility_from_a_transformed_rational_guess step done guess w =
        implied_volatility_with_limited_iterations step done guess
          (implied_volatility_maximum_iterations w) ∧
      ((implied_volatility_from_a_transformed_rational_guess step done guess w).2 : ℤ)
        ≤ implied_volatility_maximum_iterations w := by
  refine ⟨rfl, rfl, fun step done guess w => ⟨rfl, ?_⟩⟩
  have h := refineSteps_count_le step done
    (implied_volatility_maximum_iterations w).toNat guess
  cases w
  · have h1 : ((implied_volatility_from_a_transformed_rational_guess step done guess
        FloatWidth.F32).2 : ℤ) ≤ (((1 : ℤ).toNat : ℕ) : ℤ) := Int.ofNat_le.2 h
    simpa [implied_volatility_maximum_iterations] using h1
  · have h1 : ((implied_volatility_from_a_transformed_rational_guess step done guess
        FloatWidth.F64).2 : ℤ) ≤ (((2 : ℤ).toNat : ℕ) : ℤ) := Int.ofNat_le.2 h
    simpa [implied_volatility_maximum_iterations] using h1

/-- Struct `Inputs` of the repository.  Its defining module is absent from
`src/`; the field list and order are fixed by the struct literals in
`tests/test_implied_volatility.rs` and the field uses in `pricing.rs`,
`common.rs` and `implied_volatility.rs`. -/
structure Inputs where
  option_type : OptionType
  s : ℝ
  k : ℝ
  p : Option ℝ
  r : ℝ
  q : ℝ
  t : ℝ
  sigma : Option ℝ

/-- Function `calc_d1d2` from `src/common.rs` lines 12–30. -/
noncomputable def calc_d1d2 (inputs : Inputs) : Except String (ℝ × ℝ) :=
  match inputs.sigma with
  | none => Except.error "Expected Some(f32) for self.sigma, received None"
  | some sigma =>
    let numd1 := Real.log (inputs.s / inputs.k) +
      (inputs.r - inputs.q + sigma ^ 2 * (1 / 2)) * inputs.t
    let den := sigma * Real.sqrt inputs.t
    Except.ok (numd1 / den, numd1 / den - den)

/-- Function `calc_nd1nd2` from `src/common.rs` lines 37–65.  The standard
normal CDF `Normal::new(0, 1).cdf` is the spec-modelled `normCdf`; the
`NumCast` round-trips of the Rust code are identities in the real-number
model, so their error arms do not arise. -/
noncomputable def calc_nd1nd2 (inputs : Inputs) : Except String (ℝ × ℝ) :=
  match calc_d1d2 inputs with
  | Except.error e => Except.error e
  | Except.ok d1d2 =>
    match inputs.option_type with
    | OptionType.Call => Except.ok (normCdf d1d2.1, normCdf d1d2.2)
    | OptionType.Put => Except.ok (normCdf (-d1d2.1), normCdf (-d1d2.2))

/-- Function `calc_price` from `src/pricing.rs` lines 25–41. -/
noncomputable def calc_price (inputs : Inputs) : Except String ℝ :=
  match calc_nd1nd2 inputs with
  | Except.error e => Except.error e
  | Except.ok nd =>
    match inputs.option_type with
    | OptionType.Call =>
      Except.ok (max 0 (nd.1 * inputs.s * Real.exp ((-inputs.q) * inputs.t) -
        nd.2 * inputs.k * Real.exp ((-inputs.r) * inputs.t)))
    | OptionType.Put =>
      Except.ok (max 0 (nd.2 * inputs.k * Real.exp ((-inputs.r) * inputs.t) -
        nd.1 * inputs.s * Real.exp ((-inputs.q) * inputs.t)))

/-- Function `calc_rational_iv` from `src/implied_volatility.rs` lines
109–140, parameterised over the rational solver it invokes (the solver body,
`so_rational.rs`, is absent from `src/`; the claims settled against this
definition do not depend on the solver's behaviour, which is why it appears
as an explicit argument).  The Rust success check is
`sigma.is_nan() || sigma.is_infinite() || sigma < 0.0`; real numbers have no
NaN or infinity, leaving the `sigma < 0` test. -/
noncomputable def calc_rational_iv (solver : ℝ → ℝ → ℝ → ℝ → ℝ → ℝ)
    (inputs : Inputs) : Except String ℝ :=
  match inputs.p with
  | none => Except.error "Option price is required"
  | some p0 =>
    let rate_inv_discount := Real.exp (inputs.r * inputs.t)
    let p := p0 * rate_inv_discount
    let f := inputs.s * rate_inv_discount * Real.exp ((-inputs.q) * inputs.t)
    let sigma := solver p f inputs.k inputs.t inputs.option_type.sign
    if sigma < 0 then Except.error "Implied volatility failed to converge"
    else Except.ok sigma

/-- The volatility the solver produces inside `calc_rational_iv` for price
`p0`: the solver applied to the undiscounted price, the dividend-adjusted
forward, the strike, the maturity and the option sign. -/
noncomputable def rationalSolverOutput (solver : ℝ → ℝ → ℝ → ℝ → ℝ → ℝ)
    (inputs : Inputs) (p0 : ℝ) : ℝ :=
  solver (p0 * Real.exp (inputs.r * inputs.t))
    (inputs.s * Real.exp (inputs.r * inputs.t) * Real.exp ((-inputs.q) * inputs.t))
    inputs.k inputs.t inputs.option_type.sign

/-- Predicate: a pricing result is either an error or a non-negative value. -/
def exceptNonneg : Except String ℝ → Prop
  | Except.ok v => 0 ≤ v
  | Except.error _ => True

lemma calc_rational_iv_none {solver : ℝ → ℝ → ℝ → ℝ → ℝ → ℝ} {i : Inputs}
    (hp : i.p = none) :
    calc_rational_iv solver i = Except.error "Option price is required" := by
  rw [calc_rational_iv, hp]

lemma calc_rational_iv_some {solver : ℝ → ℝ → ℝ → ℝ → ℝ → ℝ} {i : Inputs} {p0 : ℝ}
    (hp : i.p = some p0) :
    calc_rational_iv solver i =
      if rationalSolverOutput solver i p0 < 0
      then Except.error "Implied volatility failed to converge"
      else Except.ok (rationalSolverOutput solver i p0) := by
  rw [calc_rational_iv, hp]
  rfl

/-- C8 counterexample: at the concrete input
`Inputs { Call, s: 100, k: 100, p: Some(-1), r: 0, q: 0, t: 1, sigma: None }`
the market price `-1` is strictly below the intrinsic value (a no-arbitrage
violation), yet `calc_rational_iv` performs no pre-iteration validation: the
price is handed to the solver and, with a solver returning `1/2`, the call
succeeds with `Ok(1/2)` — no `InvalidPrice`-style error exists or is
produced. -/
theorem calc_rational_iv_no_invalid_price_check :
    ((-1 : ℝ) < max (OptionType.Call.sign * ((100 : ℝ) - 100)) 0) ∧
    calc_rational_iv (fun _ _ _ _ _ => (1 : ℝ) / 2)
      ⟨OptionType.Call, 100, 100, some (-1), 0, 0, 1, none⟩ = Except.ok (1 / 2) := by
  constructor
  · norm_num
  · rw [calc_rational_iv]
    norm_num

/-- C8 (amended): `calc_rational_iv` performs no no-arbitrage validation of
the market price and has no distinct `InvalidPrice` error kind.  Its result
is always one of: the missing-price error, the post-hoc convergence error
(raised only after the solver has run, when the solver output is negative —
or non-finite in the floating-point original), or success with a
non-negative volatility. -/
theorem calc_rational_iv_error_structure :
    ∀ (solver : ℝ → ℝ → ℝ → ℝ → ℝ → ℝ) (i : Inputs),
      calc_rational_iv solver i = Except.error "Option price is required" ∨
      calc_rational_iv solver i = Except.error "Implied volatility failed to converge" ∨
      ∃ v, 0 ≤ v ∧ calc_rational_iv solver i = Except.ok v := by
  intro solver i
  cases hp : i.p with
  | none =>
    left
    exact calc_rational_iv_none hp
  | some p0 =>
    by_cases hneg : rationalSolverOutput solver i p0 < 0
    · right; left
      rw [calc_rational_iv_some hp]
      exact if_pos hneg
    · right; right
      refine ⟨rationalSolverOutput solver i p0, le_of_not_lt hneg, ?_⟩
      rw [calc_rational_iv_some hp]
      exact if_neg hneg

/-- C9: `calc_rational_iv` errors whenever the solver's volatility is
negative (the NaN/infinite cases of the Rust check have no counterpart among
the reals), returns `Ok` with exactly the solver's output when it is
non-negative, and never returns a negative value as a success. -/
theorem calc_rational_iv_success_nonneg :
    ∀ (solver : ℝ → ℝ → ℝ → ℝ → ℝ → ℝ) (i : Inputs),
      (∀ v, calc_rational_iv solver i = Except.ok v → 0 ≤ v) ∧
      ∀ p0, i.p = some p0 →
        (rationalSolverOutput solver i p0 < 0 →
          calc_rational_iv solver i = Except.error "Implied volatility failed to converge") ∧
        (0 ≤ rationalSolverOutput solver i p0 →
          calc_rational_iv solver i = Except.ok (rationalSolverOutput solver i p0)) := by
  intro solver i
  constructor
  · intro v hv
    cases hp : i.p with
    | none =>
      rw [calc_rational_iv_none hp] at hv
      exact absurd hv (by simp)
    | some p0 =>
      rw [calc_rational_iv_some hp] at hv
      by_cases hneg : rationalSolverOutput solver i p0 < 0
      · rw [if_pos hneg] at hv
        exact absurd hv (by simp)
      · rw [if_neg hneg] at hv
        have hv2 : rationalSolverOutput solver i p0 = v := by
          simpa using hv
        rw [← hv2]
        exact le_of_not_lt hneg
  · intro p0 hp
    refine ⟨fun hneg => ?_, fun hpos => ?_⟩
    · rw [calc_rational_iv_some hp]
      exact if_pos hneg
    · rw [calc_rational_iv_some hp]
      exact if_neg (not_lt.2 hpos)

/-- Witness for C9: a solver returning `-1` on
`Inputs { Call, s: 100, k: 100, p: Some(1), r: 0, q: 0, t: 1, sigma: None }`
makes `calc_rational_iv` fail with the convergence error. -/
theorem calc_rational_iv_success_nonneg_witness :
    calc_rational_iv (fun _ _ _ _ _ => (-1 : ℝ))
      ⟨OptionType.Call, 100, 100, some 1, 0, 0, 1, none⟩
      = Except.error "Implied volatility failed to converge" :=
  ((calc_rational_iv_success_nonneg (fun _ _ _ _ _ => (-1 : ℝ))
      ⟨OptionType.Call, 100, 100, some 1, 0, 0, 1, none⟩).2 1 rfl).1
    (by simp [rationalSolverOutput])

/-- C10: `calc_price` never returns a negative price: every successful result
is non-negative (for both option types), because the returned value is
clamped with `max(0, ·)`. -/
theorem calc_price_nonneg : ∀ i : Inputs, exceptNonneg (calc_price i) := by
  intro i
  rw [calc_price]
  cases h : calc_nd1nd2 i with
  | error e => exact trivial
  | ok nd =>
    cases ho : i.option_type
    · exact le_max_left 0 _
    · exact le_max_left 0 _

end BlackScholesRust
